import Mathlib

/-!
# Verification of the Recipe-Recommender-Chatbot core pipeline

A shallow embedding, in Lean 4, of the intent-recognition and recipe-filtering
core of the Recipe-Recommender-Chatbot repository:

* `src/utils/intent.py`  — `clean_user_input`, `best_match`, `recognize_intent`
* `src/utils/filter.py`  — `filter_recipes`
* `src/utils/model.py`   — the zero-vector placeholder for empty categories

Modelling conventions:

* Python strings are `String`; character classes (`\w`, lower-casing,
  whitespace) are modelled over ASCII, matching the data the program
  manipulates (lower-cased English tags, ingredients and utterances).
* Python `set` objects (`assigned_labels`, the utterance word set) are
  modelled by `Finset String` or by lists used only through membership,
  since the code uses sets only via membership tests and iteration-for-any.
* numpy float vectors are modelled as `List ℚ`.  The Euclidean norm is kept
  abstract (a parameter `normf`) because its value is irrational in general;
  the code treats it as an opaque positive-length function.
* The sentence-transformer model (`intent_model.encode`) is an external,
  deterministic embedding provider, modelled as a function `String → List ℚ`.
* `re.search` on the two fixed time-constraint patterns treats the pattern
  opaquely, so a pattern is modelled as its matching predicate
  `String → Bool`.
* Fallible Python code (the `ValueError` raise, a potential `IndexError` in
  `best_match` on ill-formed label tables) returns `Except`/`Option`.
-/

/-- ASCII word character, Python's `\w` on the ASCII range:
letters, digits or underscore. -/
def wordCharP (c : Char) : Bool := c.isAlphanum || c == '_'

/-- Python `str.lower()` on the ASCII range, with full control over the
character mapping (we avoid core `String.toLower` so that `toList` commutes
definitionally). -/
def lowerStr (s : String) : String := String.mk (s.toList.map Char.toLower)

/-- Auxiliary run-splitter: returns the maximal runs of characters
satisfying `keep`, in order.  `acc` is the current run, reversed. -/
def splitRunsAux (keep : Char → Bool) : List Char → List Char → List String
  | [], acc => if acc.isEmpty then [] else [String.mk acc.reverse]
  | c :: cs, acc =>
    if keep c then splitRunsAux keep cs (c :: acc)
    else if acc.isEmpty then splitRunsAux keep cs []
    else String.mk acc.reverse :: splitRunsAux keep cs []

/-- Maximal runs of characters satisfying `keep`, in order. -/
def splitRuns (keep : Char → Bool) (s : String) : List String :=
  splitRunsAux keep s.toList []

/-- Python `re.findall(r'\w+', s)`: maximal runs of word characters. -/
def findWords (s : String) : List String := splitRuns wordCharP s

/-- Python `str.split()` (no argument): maximal runs of non-whitespace. -/
def splitWs (s : String) : List String := splitRuns (fun c => !c.isWhitespace) s

/-- Python `str.strip()`: drop leading and trailing whitespace. -/
def stripStr (s : String) : String :=
  String.mk (((s.toList.dropWhile Char.isWhitespace).reverse.dropWhile
    Char.isWhitespace).reverse)

/-- Python substring test `needle in hay` for strings, on character lists. -/
def isSubstr : List Char → List Char → Bool
  | n, [] => n.isEmpty
  | n, c :: rest => n.isPrefixOf (c :: rest) || isSubstr n rest

/-- `FILLER_PHRASES` from `src/utils/intent.py`, in source order. -/
def FILLER_PHRASES : List String :=
  ["give me", "show me", "can i have", "i want", "i'd like", "please",
   "could you", "would you", "may i have", "let me have", "find me",
   "get me", "i need", "i would like", "i'm looking for", "do you have",
   "i'd love", "i'd want", "i wish for", "i wish to have", "i wish to get",
   "i wish to see", "recipe", "recipes"]

/-- One step of Python `re.sub(r'\b' + re.escape(phrase) + r'\b', '', s)` for
a fixed literal phrase whose first and last characters are word characters
(true of every member of `FILLER_PHRASES`): scan left to right, removing
non-overlapping occurrences of `p` that sit at `\b` boundaries on both sides.
`prevW` records whether the character just before the scan position (in the
original string) is a word character; `fuel` makes the recursion structural
(it is at least the length of the remaining input, so it never runs out). -/
def stripPhraseAux (p : List Char) : Nat → Bool → List Char → List Char
  | 0, _, s => s
  | _ + 1, prevW, [] => (fun _ => []) prevW
  | fuel + 1, prevW, c :: rest =>
    let s := c :: rest
    let after := s.drop p.length
    if !prevW && p.isPrefixOf s && (after.isEmpty || !wordCharP (after.headD ' '))
       && !p.isEmpty then
      stripPhraseAux p fuel (wordCharP (p.getLastD ' ')) after
    else
      c :: stripPhraseAux p fuel (wordCharP c) rest

/-- Remove every `\b`-delimited occurrence of `phrase` from `s` (the body of
the `re.sub` loop in `clean_user_input`). -/
def stripPhrase (phrase : String) (s : String) : String :=
  String.mk (stripPhraseAux phrase.toList (s.toList.length + 1) false s.toList)

/-- `sklearn.feature_extraction.text.ENGLISH_STOP_WORDS`: the frozen
318-word Glasgow IR stop-word list used by `clean_user_input`. -/
def ENGLISH_STOP_WORDS : List String :=
  ["a", "about", "above", "across", "after", "afterwards", "again", "against",
   "all", "almost", "alone", "along", "already", "also", "although", "always",
   "am", "among", "amongst", "amoungst", "amount", "an", "and", "another",
   "any", "anyhow", "anyone", "anything", "anyway", "anywhere", "are",
   "around", "as", "at", "back", "be", "became", "because", "become",
   "becomes", "becoming", "been", "before", "beforehand", "behind", "being",
   "below", "beside", "besides", "between", "beyond", "bill", "both",
   "bottom", "but", "by", "call", "can", "cannot", "cant", "co", "con",
   "could", "couldnt", "cry", "de", "describe", "detail", "do", "done",
   "down", "due", "during", "each", "eg", "eight", "either", "eleven",
   "else", "elsewhere", "empty", "enough", "etc", "even", "ever", "every",
   "everyone", "everything", "everywhere", "except", "few", "fifteen",
   "fifty", "fill", "find", "fire", "first", "five", "for", "former",
   "formerly", "forty", "found", "four", "from", "front", "full", "further",
   "get", "give", "go", "had", "has", "hasnt", "have", "he", "hence", "her",
   "here", "hereafter", "hereby", "herein", "hereupon", "hers", "herself",
   "him", "himself", "his", "how", "however", "hundred", "i", "ie", "if",
   "in", "inc", "indeed", "interest", "into", "is", "it", "its", "itself",
   "keep", "last", "latter", "latterly", "least", "less", "ltd", "made",
   "many", "may", "me", "meanwhile", "might", "mill", "mine", "more",
   "moreover", "most", "mostly", "move", "much", "must", "my", "myself",
   "name", "namely", "neither", "never", "nevertheless", "next", "nine",
   "no", "nobody", "none", "noone", "nor", "not", "nothing", "now",
   "nowhere", "of", "off", "often", "on", "once", "one", "only", "onto",
   "or", "other", "others", "otherwise", "our", "ours", "ourselves", "out",
   "over", "own", "part", "per", "perhaps", "please", "put", "rather", "re",
   "same", "see", "seem", "seemed", "seeming", "seems", "serious", "several",
   "she", "should", "show", "side", "since", "sincere", "six", "sixty", "so",
   "some", "somehow", "someone", "something", "sometime", "sometimes",
   "somewhere", "still", "such", "system", "take", "ten", "than", "that",
   "the", "their", "them", "themselves", "then", "thence", "there",
   "thereafter", "thereby", "therefore", "therein", "thereupon", "these",
   "they", "thick", "thin", "third", "this", "those", "though", "three",
   "through", "throughout", "thru", "thus", "to", "together", "too", "top",
   "toward", "towards", "twelve", "twenty", "two", "un", "under", "until",
   "up", "upon", "us", "very", "via", "was", "we", "well", "were", "what",
   "whatever", "when", "whence", "whenever", "where", "whereafter",
   "whereas", "whereby", "wherein", "whereupon", "wherever", "whether",
   "which", "while", "whither", "who", "whoever", "whole", "whom", "whose",
   "why", "will", "with", "within", "without", "would", "yet", "you",
   "your", "yours", "yourself", "yourselves"]

/-- `clean_user_input` from `src/utils/intent.py`: lower-case, strip the
filler phrases in order, keep the `\w+` tokens that are not stop words, and
re-join them with single spaces. -/
def cleanUserInput (user_input : String) : String :=
  let cleaned := FILLER_PHRASES.foldl (fun s p => stripPhrase p s)
    (lowerStr user_input)
  let ws := (findWords cleaned).filter (fun w => !ENGLISH_STOP_WORDS.contains w)
  String.intercalate " " ws

example : cleanUserInput "Give me a quick Italian recipe" = "quick italian" := by
  decide

example : cleanUserInput "please" = "" := by decide

/-! ## `best_match` (inner function of `recognize_intent`) -/

/-- Dot product of two vectors (`ref_embs @ user_emb`, one row). -/
def dot (u v : List ℚ) : ℚ := (List.zipWith (· * ·) u v).sum

/-- The cosine-similarity row
`sims = (ref_embs @ user_emb) / (norm(ref_embs, axis=1) * norm(user_emb) + 1e-8)`.
`normf` abstracts numpy's Euclidean row norm (irrational in general). -/
def cosSims (normf : List ℚ → ℚ) (user_emb : List ℚ) (ref_embs : List (List ℚ)) :
    List ℚ :=
  ref_embs.map (fun r => dot r user_emb / (normf r * normf user_emb + 1 / 100000000))

/-- Stable ascending insertion of index `i` among indices `js` already sorted
by `val`: `i`, which comes after every member of `js` in the original order,
goes after equal values. -/
def insAsc (val : ℕ → ℚ) (i : ℕ) : List ℕ → List ℕ
  | [] => [i]
  | j :: js => if val j ≤ val i then j :: insAsc val i js else i :: j :: js

/-- `sims.argsort()[::-1]`: indices sorted ascending by value (stably), then
reversed.  (numpy's default quicksort is unstable on ties; tie order is
implementation-defined there and none of the verified properties depend
on it.) -/
def argsortDesc (sims : List ℚ) : List ℕ :=
  ((List.range sims.length).foldl (fun acc i => insAsc (fun j => sims.getD j 0) i acc) []).reverse

/-- `best_match` from `recognize_intent`:
similarity row, top-`topn` indices by descending similarity, keep the pairs
`(labels[i], sims[i])` with similarity strictly above the threshold.
Returns `none` when the comprehension would index `labels` out of bounds
(Python would raise `IndexError` there). -/
def bestMatch (normf : List ℚ → ℚ) (user_emb : List ℚ) (ref_embs : List (List ℚ))
    (labels : List String) (threshold : ℚ) (topn : ℕ) :
    Option (List (String × ℚ)) :=
  if ref_embs.length = 0 then some [] else
  let sims := cosSims normf user_emb ref_embs
  let top_idx := (argsortDesc sims).take topn
  let picked := top_idx.filter (fun i => threshold < sims.getD i 0)
  picked.mapM (fun i => (sims.getD i 0 |> fun s => (labels.get? i).map (fun l => (l, s))))

/-- The zero-vector placeholder `np.zeros((1, 384))` installed by
`compile_model_and_embeddings` for a category whose label list is empty. -/
def zeroPlaceholder : List (List ℚ) := [List.replicate 384 0]

/-! ## The intent record and the recognizer -/

/-- The `intents` dictionary returned by `recognize_intent`. -/
structure Intents where
  dietary : List String
  cuisine : List String
  meal_type : List String
  time_constraint : List String
  ingredients : List String
  special : Option String
  matched : Bool
  deriving Repr, DecidableEq

/-- Failure modes of `recognize_intent`: the explicit `ValueError` on an
empty cleaned utterance, and the latent `IndexError` of `best_match` on an
ill-formed label table. -/
inductive RecErr where
  | invalidInput
  | indexErr
  deriving Repr, DecidableEq

/-- The read-only state `recognize_intent` receives: the abstract norm and
embedding provider, the fixed time-constraint patterns (each modelled by its
`re.search` matching predicate on the raw utterance), and the per-category
label/vector tables built by `compile_model_and_embeddings`. -/
structure IntentContext where
  normf : List ℚ → ℚ
  encode : String → List ℚ
  timePatterns : List (String × (String → Bool))
  embSpecial : List (List ℚ)
  labSpecial : List String
  embDietary : List (List ℚ)
  labDietary : List String
  embCuisine : List (List ℚ)
  labCuisine : List String
  embMealType : List (List ℚ)
  labMealType : List String
  embIngredients : List (List ℚ)
  labIngredients : List String

/-- The lexical cross-check of the confirmation pass (lines 136-140 of
`intent.py`): the label is a whole utterance token, or some utterance token
is a substring of the label, or the label is a substring of the cleaned
utterance. -/
def lexCheck (words : List String) (user_input_lower : String) (label : String) :
    Bool :=
  words.contains (lowerStr label)
  || words.any (fun w => isSubstr w.toList (lowerStr label).toList)
  || isSubstr (lowerStr label).toList user_input_lower.toList

/-- Confirmation pass over one category's candidate list (the inner `for
label` loop): append each candidate that passes the lexical check and is not
yet in `assigned_labels`.  Returns the field contents, the grown assigned
set, and whether any append happened (each append executes
`matched = True`). -/
def confCat (lex : String → Bool) (A : Finset String) :
    List String → List String × Finset String × Bool
  | [] => ([], A, false)
  | l :: ls =>
    if lex l ∧ l ∉ A then
      let r := confCat lex (insert l A) ls
      (l :: r.1, r.2.1, true)
    else confCat lex A ls

/-- Fallback-fill over one category's candidate list (lines 150-155): append
every candidate not yet assigned. -/
def fbCat (A : Finset String) : List String → List String × Finset String × Bool
  | [] => ([], A, false)
  | l :: ls =>
    if l ∉ A then
      let r := fbCat (insert l A) ls
      (l :: r.1, r.2.1, true)
    else fbCat A ls

/-- One iteration of the outer `for category` loop: confirmation, then —
still inside the loop — fallback-fill when the field stayed empty and the
candidate list is non-empty. -/
def stepCat (lex : String → Bool) (A : Finset String) (m : List String) :
    List String × Finset String × Bool :=
  let c := confCat lex A m
  if c.1 = [] ∧ m ≠ [] then fbCat c.2.1 m else c

/-- The outer `for category` loop of `recognize_intent` as the code runs it:
per category, confirmation immediately followed by that category's
fallback-fill (interleaved). -/
def runCats (lex : String → Bool) (A : Finset String) :
    List (List String) → List (List String) × Finset String × Bool
  | [] => ([], A, false)
  | m :: ms =>
    let s := stepCat lex A m
    let r := runCats lex s.2.1 ms
    (s.1 :: r.1, r.2.1, s.2.2 || r.2.2)

/-- Modelled from the spec (§4.3 steps 6-7): a full confirmation pass over
all categories first. -/
def confCats (lex : String → Bool) (A : Finset String) :
    List (List String) → List (List String) × Finset String × Bool
  | [] => ([], A, false)
  | m :: ms =>
    let c := confCat lex A m
    let r := confCats lex c.2.1 ms
    (c.1 :: r.1, r.2.1, c.2.2 || r.2.2)

/-- Modelled from the spec (§4.3 step 7): the fallback-fill pass, run only
after confirmation has been attempted for every candidate of every category.
Takes the per-category (confirmed field, candidate list) pairs. -/
def fbCats (A : Finset String) :
    List (List String × List String) → List (List String) × Finset String × Bool
  | [] => ([], A, false)
  | (f, m) :: rest =>
    let s := if f = [] ∧ m ≠ [] then fbCat A m else (f, A, false)
    let r := fbCats s.2.1 rest
    (s.1 :: r.1, r.2.1, s.2.2 || r.2.2)

/-- Modelled from the spec: the two-phase ordering the spec describes —
confirmation over all four categories to completion, then fallback-fill. -/
def runCatsSep (lex : String → Bool) (A : Finset String)
    (ms : List (List String)) : List (List String) × Finset String × Bool :=
  let c := confCats lex A ms
  let f := fbCats c.2.1 (c.1.zip ms)
  (f.1, f.2.1, c.2.2 || f.2.2)


/-- The body of `recognize_intent` after input validation (everything from
the `model.encode` call on), shared between the code-order and spec-order
variants through the `cats` parameter that runs the confirmation/fallback
loop. -/
def recognizeWith
    (cats : (String → Bool) → Finset String → List (List String) →
      List (List String) × Finset String × Bool)
    (ctx : IntentContext) (user_input cleaned : String) :
    Except RecErr Intents :=
  let user_emb := ctx.encode cleaned
  -- special-intent check: threshold 0.5, topn 1
  match bestMatch ctx.normf user_emb ctx.embSpecial ctx.labSpecial (1/2) 1 with
  | none => .error .indexErr
  | some special_match =>
  let special : Option String := special_match.head?.map Prod.fst
  -- time-constraint regexes against the *original* utterance
  let tc := (ctx.timePatterns.filter (fun kp => kp.2 user_input)).map Prod.fst
  -- words = set(user_input_cleaned.lower().strip().split())
  let words := splitWs (stripStr (lowerStr cleaned))
  -- category similarity pass: threshold 0.7, topn 10, in source order
  match bestMatch ctx.normf user_emb ctx.embDietary ctx.labDietary (7/10) 10 with
  | none => .error .indexErr
  | some mDiet =>
  match bestMatch ctx.normf user_emb ctx.embCuisine ctx.labCuisine (7/10) 10 with
  | none => .error .indexErr
  | some mCuis =>
  match bestMatch ctx.normf user_emb ctx.embMealType ctx.labMealType (7/10) 10 with
  | none => .error .indexErr
  | some mMeal =>
  match bestMatch ctx.normf user_emb ctx.embIngredients ctx.labIngredients (7/10) 10 with
  | none => .error .indexErr
  | some mIngr =>
  let lex := lexCheck words (lowerStr cleaned)
  -- loop order: cuisine, ingredients, meal_type, dietary
  let r := cats lex ∅
    [mCuis.map Prod.fst, mIngr.map Prod.fst, mMeal.map Prod.fst, mDiet.map Prod.fst]
  let fields := r.1
  .ok { dietary := fields.getD 3 []
        cuisine := fields.getD 0 []
        meal_type := fields.getD 2 []
        time_constraint := tc
        ingredients := fields.getD 1 []
        special := special
        matched := special.isSome || !tc.isEmpty || r.2.2 }

/-- `recognize_intent` from `src/utils/intent.py`, with the interleaved
per-category confirmation + fallback-fill loop exactly as the code runs
it. -/
def recognize (ctx : IntentContext) (user_input : String) :
    Except RecErr Intents :=
  let cleaned := cleanUserInput user_input
  if stripStr cleaned = "" then .error .invalidInput
  else recognizeWith runCats ctx user_input cleaned

/-- Modelled from the spec (§4.3): the recognizer with the spec's phase
ordering — the confirmation pass over all four categories runs to
completion before any fallback-fill. -/
def recognizeSpecOrder (ctx : IntentContext) (user_input : String) :
    Except RecErr Intents :=
  let cleaned := cleanUserInput user_input
  if stripStr cleaned = "" then .error .invalidInput
  else recognizeWith runCatsSep ctx user_input cleaned

/-! ## The recipe filter (`src/utils/filter.py`) -/

/-- One corpus row as `filter_recipes` consumes it.  `tags` / `ingredients`
are `some` when the cell actually holds a list (the `isinstance(x, list)`
guards in the code treat anything else as a non-match); the data-model
invariant of the spec makes them always `some`.  The column-rename
preamble of `filter_recipes` (lines 40-55) is the identity on a corpus
that already has `tags` / `ingredients` columns, which this typed record
always does. -/
structure Recipe where
  name : String
  minutes : Int
  description : String
  tags : Option (List String)
  ingredients : Option (List String)
  deriving Repr, DecidableEq

/-- The lower-cased utterance word set
`set(re.findall(r'\w+', user_input.lower()))` — a list used only through
membership. -/
def userWords (user_input : String) : List String :=
  findWords (lowerStr user_input)

/-- `tag_filters`: lower-cased labels of `dietary`, `cuisine`, `meal_type`,
in the dictionary's insertion order. -/
def tagFilters (intents : Intents) : List String :=
  intents.dietary.map lowerStr ++ intents.cuisine.map lowerStr
    ++ intents.meal_type.map lowerStr

/-- `ingredient_filters`: ingredient labels kept only when their lower-cased
form is literally an utterance token. -/
def ingredientFilters (intents : Intents) (user_input : String) : List String :=
  intents.ingredients.filter (fun v => (userWords user_input).contains (lowerStr v))

/-- The fixed cuisine-keyword set of the fallback path (lines 81-93 of
`filter.py`). -/
def cuisineKeywords : List String :=
  ["asian", "italian", "mexican", "indian", "american", "chinese", "japanese",
   "thai", "korean", "mediterranean", "north-american",
   "southwestern-united-states", "brazilian", "south-american", "european",
   "french", "greek", "spanish", "portuguese", "german", "hungarian",
   "austrian", "dutch", "australian", "canadian", "english",
   "middle-eastern", "turkish", "african", "moroccan", "russian",
   "colombian", "filipino", "scandinavian", "vietnamese", "lebanese",
   "swiss", "cajun", "creole", "irish", "polish", "swedish", "norwegian",
   "danish", "egyptian", "ethiopian", "nigerian", "belgian", "venezuelan",
   "quebec", "british-columbian", "nepalese", "puerto-rican", "costa-rican",
   "guatemalan", "honduran", "argentine", "chilean", "iranian-persian",
   "libyan", "somalian", "beijing", "mongolian", "cambodian", "sudanese"]

/-- Stage 1 (lines 72-77): if `tag_filters` is non-empty, keep recipes one
of whose tags, lower-cased, is in `tag_filters`. -/
def tagStage (tf : List String) (df : List Recipe) : List Recipe :=
  if tf = [] then df else
  df.filter (fun r => match r.tags with
    | some ts => ts.any (fun t => tf.contains (lowerStr t))
    | none => false)

/-- Stage 2 (lines 80-100): when no tag filter was produced and the
utterance has words, intersect the word set with the fixed cuisine keywords
and, if non-empty, keep recipes one of whose tags contains an intersecting
keyword as a substring. -/
def cuisineFallbackStage (tf : List String) (user_input : String)
    (df : List Recipe) : List Recipe :=
  if tf = [] ∧ userWords user_input ≠ [] then
    let user_cuisines := (userWords user_input).filter
      (fun w => cuisineKeywords.contains w)
    if user_cuisines ≠ [] then
      df.filter (fun r => match r.tags with
        | some ts => ts.any (fun t =>
            user_cuisines.any (fun c => isSubstr c.toList (lowerStr t).toList))
        | none => false)
    else df
  else df

/-- The per-ingredient row predicate of stage 3 (lines 103-108): some
ingredient cell contains `ing` as a substring, lower-cased. -/
def ingPred (ing : String) (r : Recipe) : Bool :=
  match r.ingredients with
  | some is => is.any (fun i => isSubstr ing.toList (lowerStr i).toList)
  | none => false

/-- Stage 3: one narrowing filter per entry of `ingredient_filters`
(AND semantics). -/
def ingredientStage (ifs : List String) (df : List Recipe) : List Recipe :=
  ifs.foldl (fun d ing => d.filter (ingPred ing)) df

/-- Stage 4 (lines 111-122): mutually exclusive time bounds, `quick`
first. -/
def timeStage (tc : List String) (df : List Recipe) : List Recipe :=
  if tc ≠ [] then
    if tc.contains "quick" then df.filter (fun r => r.minutes ≤ 60)
    else if tc.contains "slow" then df.filter (fun r => 120 < r.minutes)
    else df
  else df

/-- `filter_recipes` from `src/utils/filter.py`: the four stages applied in
source order to the corpus. -/
def filterRecipes (intents : Intents) (user_input : String)
    (df : List Recipe) : List Recipe :=
  timeStage intents.time_constraint
    (ingredientStage (ingredientFilters intents user_input)
      (cuisineFallbackStage (tagFilters intents) user_input
        (tagStage (tagFilters intents) df)))

/-- The four stage conditions fused into one row predicate (each stage's
guard is independent of the corpus, so the staged run is a single
`List.filter`; proved below as `filterRecipes_eq_filter`). -/
def filterPred (intents : Intents) (user_input : String) (r : Recipe) : Bool :=
  (if tagFilters intents = [] then true else
    match r.tags with
    | some ts => ts.any (fun t => (tagFilters intents).contains (lowerStr t))
    | none => false)
  && (if tagFilters intents = [] ∧ userWords user_input ≠ [] then
        (if (userWords user_input).filter (fun w => cuisineKeywords.contains w) ≠ []
         then
           match r.tags with
           | some ts => ts.any (fun t =>
               ((userWords user_input).filter (fun w => cuisineKeywords.contains w)).any
                 (fun c => isSubstr c.toList (lowerStr t).toList))
           | none => false
         else true)
      else true)
  && (ingredientFilters intents user_input).all (fun ing => ingPred ing r)
  && (if intents.time_constraint ≠ [] then
        if intents.time_constraint.contains "quick" then decide (r.minutes ≤ 60)
        else if intents.time_constraint.contains "slow" then decide (120 < r.minutes)
        else true
      else true)

/-! ## Concrete instances used by the witness theorems -/

/-- A small concrete context: one cuisine label `"pasta"` whose embedding
matches the utterance embedding, all other categories empty.  `normf` is
instantiated to the zero function, a legal value of the abstract norm
parameter. -/
def ctxEx : IntentContext where
  normf := fun _ => 0
  encode := fun _ => [1]
  timePatterns := []
  embSpecial := []
  labSpecial := []
  embDietary := []
  labDietary := []
  embCuisine := [[1]]
  labCuisine := ["pasta"]
  embMealType := []
  labMealType := []
  embIngredients := []
  labIngredients := []

/-- The record `recognize ctxEx "pasta"` returns. -/
def rEx : Intents :=
  { dietary := [], cuisine := ["pasta"], meal_type := [], time_constraint := []
    ingredients := [], special := none, matched := true }

example : recognize ctxEx "pasta" = .ok rEx := by with_unfolding_all rfl

/-- A quick recipe used by the filter witnesses. -/
def recipeQuickEx : Recipe :=
  { name := "omelet", minutes := 30, description := "plain"
    tags := some ["breakfast"], ingredients := some ["eggs"] }

/-- An intent record carrying only a `quick` time constraint. -/
def intentsQuickEx : Intents :=
  { dietary := [], cuisine := [], meal_type := [], time_constraint := ["quick"]
    ingredients := [], special := none, matched := true }

/-- An intent record whose only ingredient label is the multi-word
`"olive oil"`. -/
def intentsOliveEx : Intents :=
  { dietary := [], cuisine := [], meal_type := [], time_constraint := []
    ingredients := ["olive oil"], special := none, matched := true }

/-! ## Lemmas about the confirmation / fallback loop -/

theorem confCat_b (lex : String → Bool) (A : Finset String) (m : List String) :
    (confCat lex A m).2.2 = !(confCat lex A m).1.isEmpty := by
  induction m generalizing A with
  | nil => simp [confCat]
  | cons l ls ih =>
    by_cases h : lex l = true ∧ l ∉ A
    · simp [confCat, h]
    · simp only [confCat, if_neg h]
      exact ih A

theorem fbCat_b (A : Finset String) (m : List String) :
    (fbCat A m).2.2 = !(fbCat A m).1.isEmpty := by
  induction m generalizing A with
  | nil => simp [fbCat]
  | cons l ls ih =>
    by_cases h : l ∉ A
    · simp [fbCat, h]
    · simp only [fbCat, if_neg h]
      exact ih A

theorem confCat_fst_nil_iff (lex : String → Bool) (A : Finset String)
    (m : List String) :
    (confCat lex A m).1 = [] ↔ ∀ l ∈ m, lex l = true → l ∈ A := by
  induction m generalizing A with
  | nil => simp [confCat]
  | cons l ls ih =>
    by_cases h : lex l = true ∧ l ∉ A
    · simp only [confCat, if_pos h]
      constructor
      · intro hx; exact absurd hx (by simp)
      · intro hall; exact absurd (hall l (by simp) h.1) h.2
    · simp only [confCat, if_neg h]
      rw [ih]
      constructor
      · intro hall l' hl' hlex
        rcases List.mem_cons.mp hl' with rfl | hmem
        · by_contra hA; exact h ⟨hlex, hA⟩
        · exact hall l' hmem hlex
      · intro hall l' hl' hlex; exact hall l' (List.mem_cons_of_mem _ hl') hlex

theorem mem_confCat_snd (lex : String → Bool) (A : Finset String)
    (m : List String) (x : String) :
    x ∈ (confCat lex A m).2.1 ↔ x ∈ A ∨ (x ∈ m ∧ lex x = true) := by
  induction m generalizing A with
  | nil => simp [confCat]
  | cons l ls ih =>
    by_cases h : lex l = true ∧ l ∉ A
    · simp only [confCat, if_pos h]
      rw [ih]
      simp only [Finset.mem_insert, List.mem_cons]
      constructor
      · rintro ((rfl | hA) | ⟨hm, hx⟩)
        · exact Or.inr ⟨Or.inl rfl, h.1⟩
        · exact Or.inl hA
        · exact Or.inr ⟨Or.inr hm, hx⟩
      · rintro (hA | ⟨(rfl | hm), hx⟩)
        · exact Or.inl (Or.inr hA)
        · exact Or.inl (Or.inl rfl)
        · exact Or.inr ⟨hm, hx⟩
    · simp only [confCat, if_neg h]
      rw [ih]
      simp only [List.mem_cons]
      constructor
      · rintro (hA | ⟨hm, hx⟩)
        · exact Or.inl hA
        · exact Or.inr ⟨Or.inr hm, hx⟩
      · rintro (hA | ⟨(rfl | hm), hx⟩)
        · exact Or.inl hA
        · rcases Decidable.em (x ∈ A) with hA | hA
          · exact Or.inl hA
          · exact absurd ⟨hx, hA⟩ h
        · exact Or.inr ⟨hm, hx⟩

theorem confCat_congr (lex : String → Bool) (A B : Finset String)
    (m : List String) (hAB : ∀ l, lex l = true → (l ∈ A ↔ l ∈ B)) :
    (confCat lex A m).1 = (confCat lex B m).1 := by
  induction m generalizing A B with
  | nil => simp [confCat]
  | cons l ls ih =>
    by_cases hl : lex l = true
    · by_cases hA : l ∈ A
      · have hB : l ∈ B := (hAB l hl).mp hA
        rw [confCat, confCat, if_neg (by simp [hA]), if_neg (by simp [hB])]
        exact ih A B hAB
      · have hB : l ∉ B := fun hB => hA ((hAB l hl).mpr hB)
        rw [confCat, confCat, if_pos ⟨hl, hA⟩, if_pos ⟨hl, hB⟩]
        simp only [List.cons.injEq, true_and]
        exact ih (insert l A) (insert l B) (fun l' hl' => by
          simp only [Finset.mem_insert]
          exact or_congr Iff.rfl (hAB l' hl'))
    · rw [confCat, confCat, if_neg (by simp [hl]), if_neg (by simp [hl])]
      exact ih A B hAB

theorem mem_fbCat_snd (A : Finset String) (m : List String) (x : String) :
    x ∈ (fbCat A m).2.1 ↔ x ∈ A ∨ x ∈ m := by
  induction m generalizing A with
  | nil => simp [fbCat]
  | cons l ls ih =>
    by_cases h : l ∉ A
    · simp only [fbCat, if_pos h]
      rw [ih]
      simp only [Finset.mem_insert, List.mem_cons]
      tauto
    · simp only [fbCat, if_neg h]
      rw [ih]
      simp only [List.mem_cons]
      constructor
      · tauto
      · rintro (hA | (rfl | hm))
        · exact Or.inl hA
        · exact Or.inl (not_not.mp h)
        · exact Or.inr hm

theorem fbCat_congr (A B : Finset String) (m : List String)
    (hAB : ∀ l ∈ m, l ∈ A ↔ l ∈ B) :
    (fbCat A m).1 = (fbCat B m).1 := by
  induction m generalizing A B with
  | nil => simp [fbCat]
  | cons l ls ih =>
    by_cases hA : l ∈ A
    · have hB : l ∈ B := (hAB l (by simp)).mp hA
      rw [fbCat, fbCat, if_neg (by simp [hA]), if_neg (by simp [hB])]
      exact ih A B (fun l' hl' => hAB l' (List.mem_cons_of_mem _ hl'))
    · have hB : l ∉ B := fun hB => hA ((hAB l (by simp)).mpr hB)
      rw [fbCat, fbCat, if_pos hA, if_pos hB]
      simp only [List.cons.injEq, true_and]
      exact ih (insert l A) (insert l B) (fun l' hl' => by
        simp only [Finset.mem_insert]
        exact or_congr Iff.rfl (hAB l' (List.mem_cons_of_mem _ hl')))

theorem mem_confCats_snd (lex : String → Bool) (A : Finset String)
    (ms : List (List String)) (x : String) :
    x ∈ (confCats lex A ms).2.1 ↔ x ∈ A ∨ ∃ m ∈ ms, x ∈ m ∧ lex x = true := by
  induction ms generalizing A with
  | nil => simp [confCats]
  | cons m ms ih =>
    simp only [confCats]
    rw [ih, mem_confCat_snd]
    simp only [List.mem_cons]
    constructor
    · rintro ((hA | ⟨hm, hx⟩) | ⟨m', hm', hxm', hx⟩)
      · exact Or.inl hA
      · exact Or.inr ⟨m, Or.inl rfl, hm, hx⟩
      · exact Or.inr ⟨m', Or.inr hm', hxm', hx⟩
    · rintro (hA | ⟨m', (rfl | hm'), hxm', hx⟩)
      · exact Or.inl (Or.inl hA)
      · exact Or.inl (Or.inr ⟨hxm', hx⟩)
      · exact Or.inr ⟨m', hm', hxm', hx⟩

theorem confCats_congr (lex : String → Bool) (A B : Finset String)
    (ms : List (List String)) (hAB : ∀ l, lex l = true → (l ∈ A ↔ l ∈ B)) :
    (confCats lex A ms).1 = (confCats lex B ms).1 := by
  induction ms generalizing A B with
  | nil => simp [confCats]
  | cons m ms ih =>
    simp only [confCats, List.cons.injEq]
    refine ⟨confCat_congr lex A B m hAB, ih _ _ (fun l hl => ?_)⟩
    rw [mem_confCat_snd, mem_confCat_snd]
    exact or_congr (hAB l hl) Iff.rfl

theorem confCats_b (lex : String → Bool) (A : Finset String)
    (ms : List (List String)) :
    (confCats lex A ms).2.2 = ((confCats lex A ms).1).any (fun f => !f.isEmpty) := by
  induction ms generalizing A with
  | nil => simp [confCats]
  | cons m ms ih =>
    simp only [confCats, List.any_cons]
    rw [confCat_b, ih]

theorem runCats_eq_sep (lex : String → Bool) (ms : List (List String)) :
    ∀ A : Finset String, runCats lex A ms = runCatsSep lex A ms := by
  induction ms with
  | nil => intro A; simp [runCats, runCatsSep, confCats, fbCats]
  | cons m ms ih =>
    intro A
    by_cases hc : (confCat lex A m).1 = [] ∧ m ≠ []
    · -- fallback-fill fires for this category
      have hnil : (confCat lex A m).1 = [] := hc.1
      have hlexA : ∀ l ∈ m, lex l = true → l ∈ A :=
        (confCat_fst_nil_iff lex A m).mp hnil
      -- the interleaved step is the fallback on the post-confirmation set
      have hstep : stepCat lex A m = fbCat (confCat lex A m).2.1 m := by
        rw [stepCat, if_pos hc]
      -- the two fallback runs agree on the candidate list
      have hmemiff : ∀ l ∈ m,
          (l ∈ (confCat lex A m).2.1 ↔ l ∈ (confCats lex (confCat lex A m).2.1 ms).2.1) := by
        intro l hl
        rw [mem_confCats_snd]
        constructor
        · exact Or.inl
        · rintro (h | ⟨m', _, _, hx⟩)
          · exact h
          · exact (mem_confCat_snd lex A m l).mpr (Or.inl (hlexA l hl hx))
      have hfb1 : (fbCat (confCat lex A m).2.1 m).1
          = (fbCat (confCats lex (confCat lex A m).2.1 ms).2.1 m).1 :=
        fbCat_congr _ _ m hmemiff
      -- the later confirmations ignore the fallback's (lexically failing) additions
      have hconfiff : ∀ l, lex l = true →
          (l ∈ (fbCat (confCat lex A m).2.1 m).2.1 ↔ l ∈ (confCat lex A m).2.1) := by
        intro l hl
        rw [mem_fbCat_snd]
        constructor
        · rintro (h | hm)
          · exact h
          · exact (mem_confCat_snd lex A m l).mpr (Or.inl (hlexA l hm hl))
        · exact Or.inl
      have hcfields : (confCats lex (fbCat (confCat lex A m).2.1 m).2.1 ms).1
          = (confCats lex (confCat lex A m).2.1 ms).1 :=
        confCats_congr lex _ _ ms hconfiff
      -- the assigned sets feeding the remaining fallbacks are equal
      have hsets : (confCats lex (fbCat (confCat lex A m).2.1 m).2.1 ms).2.1
          = (fbCat (confCats lex (confCat lex A m).2.1 ms).2.1 m).2.1 := by
        ext x
        rw [mem_confCats_snd, mem_fbCat_snd, mem_fbCat_snd, mem_confCats_snd,
          or_assoc, or_assoc]
        exact or_congr Iff.rfl or_comm
      have hb1 : (fbCat (confCat lex A m).2.1 m).2.2
          = (fbCat (confCats lex (confCat lex A m).2.1 ms).2.1 m).2.2 := by
        rw [fbCat_b, fbCat_b, hfb1]
      have hb2 : (confCats lex (fbCat (confCat lex A m).2.1 m).2.1 ms).2.2
          = (confCats lex (confCat lex A m).2.1 ms).2.2 := by
        rw [confCats_b, confCats_b, hcfields]
      have hb0 : (confCat lex A m).2.2 = false := by
        rw [confCat_b, hnil]; rfl
      -- assemble
      simp only [runCats, hstep, ih, runCatsSep, confCats, List.zip_cons_cons,
        fbCats]
      rw [if_pos hc]
      rw [hcfields, hsets, hb2, hfb1, hb1, hb0]
      simp [Bool.or_left_comm, Bool.or_assoc, List.zip]
    · -- no fallback for this category: the step is confirmation alone
      have hstep : stepCat lex A m = confCat lex A m := by
        rw [stepCat, if_neg hc]
      simp only [runCats, hstep, ih, runCatsSep, confCats, List.zip_cons_cons,
        fbCats]
      rw [if_neg hc]
      simp [Bool.or_assoc, List.zip]

theorem confCat_fst_mem (lex : String → Bool) (A : Finset String)
    (m : List String) :
    ∀ x ∈ (confCat lex A m).1, (x ∈ m ∧ lex x = true) ∧ x ∉ A := by
  induction m generalizing A with
  | nil => simp [confCat]
  | cons l ls ih =>
    by_cases h : lex l = true ∧ l ∉ A
    · simp only [confCat, if_pos h]
      intro x hx
      rcases List.mem_cons.mp hx with rfl | hx
      · exact ⟨⟨by simp, h.1⟩, h.2⟩
      · obtain ⟨⟨hm, hlex⟩, hA⟩ := ih (insert l A) x hx
        exact ⟨⟨List.mem_cons_of_mem _ hm, hlex⟩,
          fun hxA => hA (Finset.mem_insert_of_mem hxA)⟩
    · simp only [confCat, if_neg h]
      intro x hx
      obtain ⟨⟨hm, hlex⟩, hA⟩ := ih A x hx
      exact ⟨⟨List.mem_cons_of_mem _ hm, hlex⟩, hA⟩

theorem confCat_fst_nodup (lex : String → Bool) (A : Finset String)
    (m : List String) : (confCat lex A m).1.Nodup := by
  induction m generalizing A with
  | nil => simp [confCat]
  | cons l ls ih =>
    by_cases h : lex l = true ∧ l ∉ A
    · simp only [confCat, if_pos h]
      refine List.nodup_cons.mpr ⟨fun hmem => ?_, ih (insert l A)⟩
      exact (confCat_fst_mem lex (insert l A) ls l hmem).2 (Finset.mem_insert_self l A)
    · simp only [confCat, if_neg h]
      exact ih A

theorem fbCat_fst_mem (A : Finset String) (m : List String) :
    ∀ x ∈ (fbCat A m).1, x ∈ m ∧ x ∉ A := by
  induction m generalizing A with
  | nil => simp [fbCat]
  | cons l ls ih =>
    by_cases h : l ∉ A
    · simp only [fbCat, if_pos h]
      intro x hx
      rcases List.mem_cons.mp hx with rfl | hx
      · exact ⟨by simp, h⟩
      · obtain ⟨hm, hA⟩ := ih (insert l A) x hx
        exact ⟨List.mem_cons_of_mem _ hm, fun hxA => hA (Finset.mem_insert_of_mem hxA)⟩
    · simp only [fbCat, if_neg h]
      intro x hx
      obtain ⟨hm, hA⟩ := ih A x hx
      exact ⟨List.mem_cons_of_mem _ hm, hA⟩

theorem fbCat_fst_nodup (A : Finset String) (m : List String) :
    (fbCat A m).1.Nodup := by
  induction m generalizing A with
  | nil => simp [fbCat]
  | cons l ls ih =>
    by_cases h : l ∉ A
    · simp only [fbCat, if_pos h]
      refine List.nodup_cons.mpr ⟨fun hmem => ?_, ih (insert l A)⟩
      exact (fbCat_fst_mem (insert l A) ls l hmem).2 (Finset.mem_insert_self l A)
    · simp only [fbCat, if_neg h]
      exact ih A

theorem stepCat_fst_mem (lex : String → Bool) (A : Finset String)
    (m : List String) : ∀ x ∈ (stepCat lex A m).1, x ∉ A := by
  simp only [stepCat]
  split
  · intro x hx
    have h := fbCat_fst_mem (confCat lex A m).2.1 m x hx
    exact fun hA => h.2 ((mem_confCat_snd lex A m x).mpr (Or.inl hA))
  · intro x hx
    exact (confCat_fst_mem lex A m x hx).2

theorem stepCat_fst_nodup (lex : String → Bool) (A : Finset String)
    (m : List String) : (stepCat lex A m).1.Nodup := by
  simp only [stepCat]
  split
  · exact fbCat_fst_nodup _ m
  · exact confCat_fst_nodup lex A m

theorem mem_stepCat_snd (lex : String → Bool) (A : Finset String)
    (m : List String) (x : String) :
    x ∈ A ∨ x ∈ (stepCat lex A m).1 → x ∈ (stepCat lex A m).2.1 := by
  simp only [stepCat]
  split
  · rintro (hA | hx)
    · exact (mem_fbCat_snd _ m x).mpr
        (Or.inl ((mem_confCat_snd lex A m x).mpr (Or.inl hA)))
    · exact (mem_fbCat_snd _ m x).mpr (Or.inr (fbCat_fst_mem _ m x hx).1)
  · rintro (hA | hx)
    · exact (mem_confCat_snd lex A m x).mpr (Or.inl hA)
    · obtain ⟨⟨hm, hlex⟩, _⟩ := confCat_fst_mem lex A m x hx
      exact (mem_confCat_snd lex A m x).mpr (Or.inr ⟨hm, hlex⟩)

theorem stepCat_b (lex : String → Bool) (A : Finset String) (m : List String) :
    (stepCat lex A m).2.2 = !(stepCat lex A m).1.isEmpty := by
  simp only [stepCat]
  split
  · exact fbCat_b _ m
  · exact confCat_b lex A m

theorem runCats_inv (lex : String → Bool) (ms : List (List String)) :
    ∀ A : Finset String,
      (((runCats lex A ms).1).flatten).Nodup
      ∧ (∀ x ∈ ((runCats lex A ms).1).flatten, x ∉ A)
      ∧ (∀ x, x ∈ A ∨ x ∈ ((runCats lex A ms).1).flatten →
          x ∈ (runCats lex A ms).2.1) := by
  induction ms with
  | nil => intro A; simp [runCats]
  | cons m ms ih =>
    intro A
    obtain ⟨ihnd, ihA, ihsub⟩ := ih (stepCat lex A m).2.1
    simp only [runCats, List.flatten_cons]
    refine ⟨?_, ?_, ?_⟩
    · rw [List.nodup_append]
      refine ⟨stepCat_fst_nodup lex A m, ihnd, fun x hx hx' => ?_⟩
      exact ihA x hx' (mem_stepCat_snd lex A m x (Or.inr hx))
    · intro x hx
      rcases List.mem_append.mp hx with hx | hx
      · exact stepCat_fst_mem lex A m x hx
      · exact fun hA => ihA x hx (mem_stepCat_snd lex A m x (Or.inl hA))
    · rintro x (hA | hx)
      · exact ihsub x (Or.inl (mem_stepCat_snd lex A m x (Or.inl hA)))
      · rcases List.mem_append.mp hx with hx | hx
        · exact ihsub x (Or.inl (mem_stepCat_snd lex A m x (Or.inr hx)))
        · exact ihsub x (Or.inr hx)

theorem runCats_b (lex : String → Bool) (ms : List (List String))
    (A : Finset String) :
    (runCats lex A ms).2.2 = ((runCats lex A ms).1).any (fun f => !f.isEmpty) := by
  induction ms generalizing A with
  | nil => simp [runCats]
  | cons m ms ih =>
    simp only [runCats, List.any_cons]
    rw [stepCat_b, ih]

theorem runCats_length (lex : String → Bool) (ms : List (List String))
    (A : Finset String) : ((runCats lex A ms).1).length = ms.length := by
  induction ms generalizing A with
  | nil => simp [runCats]
  | cons m ms ih => simp only [runCats, List.length_cons, ih]

theorem list_len4 {α : Type} (fs : List α) (h : fs.length = 4) :
    ∃ a b c d, fs = [a, b, c, d] := by
  rcases fs with _ | ⟨a, fs⟩
  · simp at h
  rcases fs with _ | ⟨b, fs⟩
  · simp at h
  rcases fs with _ | ⟨c, fs⟩
  · simp at h
  rcases fs with _ | ⟨d, fs⟩
  · simp at h
  rcases fs with _ | ⟨e, fs⟩
  · exact ⟨a, b, c, d, rfl⟩
  · simp at h

theorem recognizeWith_ok
    (cats : (String → Bool) → Finset String → List (List String) →
      List (List String) × Finset String × Bool)
    (ctx : IntentContext) (ui cl : String) (r : Intents)
    (h : recognizeWith cats ctx ui cl = .ok r) :
    ∃ (lex : String → Bool) (m0 m1 m2 m3 : List String),
      r.cuisine = (cats lex ∅ [m0, m1, m2, m3]).1.getD 0 []
      ∧ r.ingredients = (cats lex ∅ [m0, m1, m2, m3]).1.getD 1 []
      ∧ r.meal_type = (cats lex ∅ [m0, m1, m2, m3]).1.getD 2 []
      ∧ r.dietary = (cats lex ∅ [m0, m1, m2, m3]).1.getD 3 []
      ∧ r.matched = (r.special.isSome || !r.time_constraint.isEmpty
          || (cats lex ∅ [m0, m1, m2, m3]).2.2) := by
  simp only [recognizeWith] at h
  split at h
  · exact absurd h (by simp)
  split at h
  · exact absurd h (by simp)
  split at h
  · exact absurd h (by simp)
  split at h
  · exact absurd h (by simp)
  split at h
  · exact absurd h (by simp)
  simp only [Except.ok.injEq] at h
  subst h
  exact ⟨_, _, _, _, _, rfl, rfl, rfl, rfl, rfl⟩

theorem recognizeWith_ne_invalid
    (cats : (String → Bool) → Finset String → List (List String) →
      List (List String) × Finset String × Bool)
    (ctx : IntentContext) (ui cl : String) :
    recognizeWith cats ctx ui cl ≠ .error .invalidInput := by
  simp only [recognizeWith]
  split
  · simp
  split
  · simp
  split
  · simp
  split
  · simp
  split
  · simp
  simp

/-! ## Claim theorems — recognizer -/

/-- **C1.** In `recognize`, the fallback-fill step is observationally
equivalent to running only after the confirmation pass over all four
categories has completed: the recognizer as the code interleaves it
(per-category confirmation immediately followed by that category's
fallback-fill) returns exactly the record of the spec-ordered recognizer
(full confirmation pass over cuisine, ingredients, meal_type, dietary, then
the fallback-fill pass).  In particular a label that would be lexically
confirmed into a later category is never consumed earlier by another
category's fallback-fill. -/
theorem recognize_eq_recognizeSpecOrder (ctx : IntentContext) (u : String) :
    recognize ctx u = recognizeSpecOrder ctx u := by
  simp only [recognize, recognizeSpecOrder, recognizeWith, runCats_eq_sep]

/-- **C2.** For every utterance on which `recognize` succeeds, no label
occurs in more than one of the cuisine, ingredients, meal_type and dietary
fields, and none occurs twice within a single field: the concatenation of
the four fields has no duplicate. -/
theorem recognize_fields_disjoint (ctx : IntentContext) (u : String)
    (r : Intents) (h : recognize ctx u = .ok r) :
    (r.cuisine ++ r.ingredients ++ r.meal_type ++ r.dietary).Nodup := by
  simp only [recognize] at h
  split at h
  · exact absurd h (by simp)
  · obtain ⟨lex, m0, m1, m2, m3, hc, hi, hm, hd, _⟩ :=
      recognizeWith_ok _ _ _ _ _ h
    obtain ⟨f0, f1, f2, f3, hfs⟩ :=
      list_len4 _ (runCats_length lex [m0, m1, m2, m3] ∅)
    have hnd := (runCats_inv lex [m0, m1, m2, m3] ∅).1
    rw [hfs] at hnd hc hi hm hd
    simp only [List.getD_cons_zero, List.getD_cons_succ] at hc hi hm hd
    rw [hc, hi, hm, hd]
    simpa [List.append_assoc] using hnd

/-- **C4.** `recognize` fails with the invalid-input error exactly when the
cleaned utterance is empty or whitespace-only. -/
theorem recognize_invalidInput_iff (ctx : IntentContext) (u : String) :
    recognize ctx u = .error .invalidInput
      ↔ stripStr (cleanUserInput u) = "" := by
  simp only [recognize]
  split
  · rename_i hcond
    simp [hcond]
  · rename_i hcond
    constructor
    · intro hcon
      exact absurd hcon (recognizeWith_ne_invalid _ _ _ _)
    · intro hs
      exact absurd hs hcond

/-- **C6.** For every utterance on which `recognize` succeeds, the
`matched` flag is true iff some field of the record is non-empty /
non-none. -/
theorem recognize_matched_iff (ctx : IntentContext) (u : String)
    (r : Intents) (h : recognize ctx u = .ok r) :
    r.matched = true
      ↔ (r.dietary ≠ [] ∨ r.cuisine ≠ [] ∨ r.meal_type ≠ []
          ∨ r.ingredients ≠ [] ∨ r.time_constraint ≠ []
          ∨ r.special.isSome = true) := by
  simp only [recognize] at h
  split at h
  · exact absurd h (by simp)
  · obtain ⟨lex, m0, m1, m2, m3, hc, hi, hm, hd, hmt⟩ :=
      recognizeWith_ok _ _ _ _ _ h
    obtain ⟨f0, f1, f2, f3, hfs⟩ :=
      list_len4 _ (runCats_length lex [m0, m1, m2, m3] ∅)
    have hb := runCats_b lex [m0, m1, m2, m3] ∅
    rw [hfs] at hb hc hi hm hd
    simp only [List.getD_cons_zero, List.getD_cons_succ] at hc hi hm hd
    rw [hmt, hb, hc, hi, hm, hd]
    simp only [Bool.or_eq_true, Bool.not_eq_true', List.any_eq_true,
      List.isEmpty_eq_false, List.mem_cons, List.not_mem_nil,
      List.isEmpty_iff]
    constructor
    · rintro ((hs | ht) | hx)
      · exact Or.inr (Or.inr (Or.inr (Or.inr (Or.inr (by simpa using hs)))))
      · exact Or.inr (Or.inr (Or.inr (Or.inr (Or.inl (by simpa using ht)))))
      · obtain ⟨f, hf, hne⟩ := hx
        rcases hf with rfl | rfl | rfl | rfl | hf
        · exact Or.inr (Or.inl (by simpa using hne))
        · exact Or.inr (Or.inr (Or.inr (Or.inl (by simpa using hne))))
        · exact Or.inr (Or.inr (Or.inl (by simpa using hne)))
        · exact Or.inl (by simpa using hne)
        · cases hf
    · rintro (hd3 | hc0 | hm2 | hi1 | ht | hs)
      · exact Or.inr ⟨f3, by simp, by simpa using hd3⟩
      · exact Or.inr ⟨f0, by simp, by simpa using hc0⟩
      · exact Or.inr ⟨f2, by simp, by simpa using hm2⟩
      · exact Or.inr ⟨f1, by simp, by simpa using hi1⟩
      · exact Or.inl (Or.inr (by simpa using ht))
      · exact Or.inl (Or.inl (by simpa using hs))

/-- **C9.** `recognize` is deterministic: two calls with the same utterance
and the same context (vocabulary, embedding index, deterministic embedding
provider) return identical records.  In this pure embedding the context and
provider are explicit values, so determinism is equality of results under
equal inputs. -/
theorem recognize_deterministic (ctx : IntentContext) (u₁ u₂ : String)
    (h : u₁ = u₂) : recognize ctx u₁ = recognize ctx u₂ := by rw [h]

/-- Witness for C2: the disjointness theorem applied at the concrete
context and utterance. -/
theorem recognize_fields_disjoint_witness :
    (rEx.cuisine ++ rEx.ingredients ++ rEx.meal_type ++ rEx.dietary).Nodup :=
  recognize_fields_disjoint ctxEx "pasta" rEx (by with_unfolding_all rfl)

/-- Witness for C6: the matched-flag characterization applied at the
concrete context and utterance. -/
theorem recognize_matched_iff_witness :
    rEx.matched = true
      ↔ (rEx.dietary ≠ [] ∨ rEx.cuisine ≠ [] ∨ rEx.meal_type ≠ []
          ∨ rEx.ingredients ≠ [] ∨ rEx.time_constraint ≠ []
          ∨ rEx.special.isSome = true) :=
  recognize_matched_iff ctxEx "pasta" rEx (by with_unfolding_all rfl)

/-- Witness for C9: determinism applied at a concrete repeated call. -/
theorem recognize_deterministic_witness :
    recognize ctxEx "pasta" = recognize ctxEx "pasta" :=
  recognize_deterministic ctxEx "pasta" "pasta" rfl

/-! ## Claim C7 — the zero-vector placeholder is inert -/

theorem dot_replicate_zero (n : ℕ) (u : List ℚ) :
    dot (List.replicate n 0) u = 0 := by
  induction n generalizing u with
  | zero => simp [dot]
  | succ k ih =>
    cases u with
    | nil => simp [dot]
    | cons x xs =>
      simp only [dot, List.replicate_succ, List.zipWith_cons_cons, List.sum_cons,
        zero_mul, zero_add]
      simpa [dot] using ih xs

/-- **C7.** For a category whose label list is empty, scoring against the
single zero-vector placeholder table produces the empty candidate list for
every utterance embedding, every norm function and every non-negative
threshold (the code uses 0.5 and 0.7), and never indexes out of bounds
(result `some`, not `none`): the placeholder row's similarity is exactly 0,
which never exceeds the threshold. -/
theorem bestMatch_empty_labels (normf : List ℚ → ℚ) (u : List ℚ) (t : ℚ)
    (n : ℕ) (ht : 0 ≤ t) :
    bestMatch normf u zeroPlaceholder [] t n = some [] := by
  have hsims : cosSims normf u [List.replicate 384 0] = [0] := by
    simp only [cosSims, List.map_cons, List.map_nil, dot_replicate_zero, zero_div]
  have hsort : argsortDesc [(0 : ℚ)] = [0] := rfl
  simp only [bestMatch, zeroPlaceholder, List.length_singleton]
  rw [if_neg (by norm_num)]
  simp only [hsims, hsort]
  cases n with
  | zero => simp [List.mapM.loop]
  | succ k =>
    have htop : List.take (k + 1) [0] = [0] := by simp
    rw [htop]
    have hf : List.filter (fun i => decide (t < List.getD [(0 : ℚ)] i 0)) [0] = [] := by
      simp [List.filter, not_lt.mpr ht]
    rw [hf]
    rfl

/-- Witness for C7: the placeholder theorem at the concrete threshold 0.7
used for the four vocabulary categories. -/
theorem bestMatch_empty_labels_witness :
    (0 : ℚ) ≤ 7/10
      ∧ bestMatch (fun _ => 0) [] zeroPlaceholder [] (7/10) 10 = some [] :=
  ⟨by norm_num, bestMatch_empty_labels (fun _ => 0) [] (7/10) 10 (by norm_num)⟩

/-! ## Lemmas about the filter stages -/

theorem ingredientStage_eq_filter (ifs : List String) (df : List Recipe) :
    ingredientStage ifs df
      = df.filter (fun r => ifs.all (fun ing => ingPred ing r)) := by
  induction ifs generalizing df with
  | nil => simp [ingredientStage]
  | cons ing ifs ih =>
    simp only [ingredientStage, List.foldl_cons] at *
    rw [ih (df.filter (ingPred ing)), List.filter_filter]
    apply List.filter_congr
    intro a _
    simp [List.all_cons, Bool.and_comm]

theorem tagStage_eq_filter (tf : List String) (df : List Recipe) :
    tagStage tf df = df.filter (fun r =>
      if tf = [] then true else
      match r.tags with
      | some ts => ts.any (fun t => tf.contains (lowerStr t))
      | none => false) := by
  unfold tagStage
  split_ifs with h
  · symm
    rw [List.filter_eq_self]
    intro a _
    rfl
  · apply List.filter_congr
    intro a _
    rfl

theorem cuisineFallbackStage_eq_filter (tf : List String) (u : String)
    (df : List Recipe) :
    cuisineFallbackStage tf u df = df.filter (fun r =>
      if tf = [] ∧ userWords u ≠ [] then
        (if (userWords u).filter (fun w => cuisineKeywords.contains w) ≠ [] then
          match r.tags with
          | some ts => ts.any (fun t =>
              ((userWords u).filter (fun w => cuisineKeywords.contains w)).any
                (fun c => isSubstr c.toList (lowerStr t).toList))
          | none => false
        else true)
      else true) := by
  simp only [cuisineFallbackStage]
  split_ifs with h1 h2
  · apply List.filter_congr
    intro a _
    rfl
  · symm
    rw [List.filter_eq_self]
    intro a _
    rfl
  · symm
    rw [List.filter_eq_self]
    intro a _
    rfl

theorem timeStage_eq_filter (tc : List String) (df : List Recipe) :
    timeStage tc df = df.filter (fun r =>
      if tc ≠ [] then
        if tc.contains "quick" then decide (r.minutes ≤ 60)
        else if tc.contains "slow" then decide (120 < r.minutes)
        else true
      else true) := by
  unfold timeStage
  split_ifs with h1 h2 h3
  · apply List.filter_congr
    intro a _
    rfl
  · apply List.filter_congr
    intro a _
    rfl
  · symm
    rw [List.filter_eq_self]
    intro a _
    rfl
  · symm
    rw [List.filter_eq_self]
    intro a _
    rfl

theorem filterRecipes_eq_filter (i : Intents) (u : String) (df : List Recipe) :
    filterRecipes i u df = df.filter (filterPred i u) := by
  unfold filterRecipes
  rw [tagStage_eq_filter, cuisineFallbackStage_eq_filter,
    ingredientStage_eq_filter, timeStage_eq_filter, List.filter_filter,
    List.filter_filter, List.filter_filter]
  apply List.filter_congr
  intro a _
  simp only [filterPred]
  ac_rfl

/-! ## Claim theorems — filter -/

theorem contains_of_mem {x : String} {l : List String} (h : x ∈ l) :
    l.contains x = true := List.elem_iff.mpr h

theorem contains_eq_false_of_not_mem {x : String} {l : List String}
    (h : x ∉ l) : l.contains x = false := by
  cases hc : l.contains x
  · rfl
  · exact absurd (List.elem_iff.mp hc) h

/-- **C3.** The filter output is a subsequence of the input corpus: every
returned recipe is an element of the corpus, no duplicates are introduced
(per-recipe multiplicity does not grow), and relative corpus order is
preserved (`Sublist` is exactly order-preserving selection). -/
theorem filterRecipes_sublist (i : Intents) (u : String) (df : List Recipe) :
    (filterRecipes i u df).Sublist df
    ∧ (∀ r ∈ filterRecipes i u df, r ∈ df)
    ∧ (∀ r : Recipe, (filterRecipes i u df).count r ≤ df.count r) := by
  have h : (filterRecipes i u df).Sublist df := by
    rw [filterRecipes_eq_filter]
    exact List.filter_sublist df
  exact ⟨h, fun r hr => h.subset hr, fun r => h.count_le r⟩

/-- **C8.** `filter` never raises: on the data model with materialized
sequences it is a total function, equal to a single `List.filter` of the
corpus by the fused row predicate, and it returns the empty sequence (not
an error) when no corpus recipe satisfies that predicate. -/
theorem filterRecipes_total (i : Intents) (u : String) (df : List Recipe) :
    filterRecipes i u df = df.filter (filterPred i u)
    ∧ ((∀ r ∈ df, filterPred i u r = false) → filterRecipes i u df = []) := by
  refine ⟨filterRecipes_eq_filter i u df, fun h => ?_⟩
  rw [filterRecipes_eq_filter]
  exact List.filter_eq_nil_iff.mpr (fun a ha => by simp [h a ha])

/-- Witness for C8: the no-match branch applied at a concrete corpus. -/
theorem filterRecipes_total_witness :
    filterRecipes intentsQuickEx "pasta" [] = [] :=
  (filterRecipes_total intentsQuickEx "pasta" []).2
    (fun r hr => absurd hr (List.not_mem_nil r))

/-- **C5.** The time-constraint stage applies `quick` and `slow` mutually
exclusively with `quick` taking priority: with `quick` present the result
is the pre-time stages filtered to `minutes ≤ 60`; with `quick` absent and
`slow` present, filtered to `minutes > 120`; with an empty time constraint
no time filtering happens at all. -/
theorem filterRecipes_time (i : Intents) (u : String) (df : List Recipe) :
    ("quick" ∈ i.time_constraint →
      filterRecipes i u df
        = (ingredientStage (ingredientFilters i u)
            (cuisineFallbackStage (tagFilters i) u
              (tagStage (tagFilters i) df))).filter
            (fun r => decide (r.minutes ≤ 60))
      ∧ ∀ r ∈ filterRecipes i u df, r.minutes ≤ 60)
    ∧ ("quick" ∉ i.time_constraint → "slow" ∈ i.time_constraint →
      filterRecipes i u df
        = (ingredientStage (ingredientFilters i u)
            (cuisineFallbackStage (tagFilters i) u
              (tagStage (tagFilters i) df))).filter
            (fun r => decide (120 < r.minutes))
      ∧ ∀ r ∈ filterRecipes i u df, 120 < r.minutes)
    ∧ (i.time_constraint = [] →
      filterRecipes i u df
        = ingredientStage (ingredientFilters i u)
            (cuisineFallbackStage (tagFilters i) u
              (tagStage (tagFilters i) df))) := by
  refine ⟨fun hq => ?_, fun hnq hs => ?_, fun he => ?_⟩
  · have hne : i.time_constraint ≠ [] := fun h0 => by
      rw [h0] at hq; exact List.not_mem_nil _ hq
    have hcq := contains_of_mem hq
    have heq : filterRecipes i u df
        = (ingredientStage (ingredientFilters i u)
            (cuisineFallbackStage (tagFilters i) u
              (tagStage (tagFilters i) df))).filter
            (fun r => decide (r.minutes ≤ 60)) := by
      unfold filterRecipes timeStage
      rw [if_pos hne, if_pos hcq]
    refine ⟨heq, fun r hr => ?_⟩
    rw [heq] at hr
    exact of_decide_eq_true (List.mem_filter.mp hr).2
  · have hne : i.time_constraint ≠ [] := fun h0 => by
      rw [h0] at hs; exact List.not_mem_nil _ hs
    have hcq := contains_eq_false_of_not_mem hnq
    have hcs := contains_of_mem hs
    have heq : filterRecipes i u df
        = (ingredientStage (ingredientFilters i u)
            (cuisineFallbackStage (tagFilters i) u
              (tagStage (tagFilters i) df))).filter
            (fun r => decide (120 < r.minutes)) := by
      unfold filterRecipes timeStage
      rw [if_pos hne, if_neg (by rw [hcq]; exact Bool.false_ne_true), if_pos hcs]
    refine ⟨heq, fun r hr => ?_⟩
    rw [heq] at hr
    exact of_decide_eq_true (List.mem_filter.mp hr).2
  · unfold filterRecipes timeStage
    rw [if_neg (by rw [he]; exact fun h => h rfl)]

/-- Witness for C5: the `quick` branch applied at a concrete intent, corpus
and recipe. -/
theorem filterRecipes_time_witness : recipeQuickEx.minutes ≤ 60 :=
  ((filterRecipes_time intentsQuickEx "" [recipeQuickEx]).1 (by decide)).2
    recipeQuickEx (by decide)

/-! ## Claim C10 — non-word ingredient labels are inert in the filter -/

theorem splitRunsAux_chars (keep : Char → Bool) :
    ∀ (s acc : List Char), (∀ c ∈ acc, keep c = true) →
      ∀ w ∈ splitRunsAux keep s acc, ∀ c ∈ w.toList, keep c = true := by
  intro s
  induction s with
  | nil =>
    intro acc hacc w hw c hc
    simp only [splitRunsAux] at hw
    by_cases hae : acc.isEmpty
    · rw [if_pos hae] at hw
      cases hw
    · rw [if_neg hae] at hw
      rcases List.mem_singleton.mp hw with rfl
      exact hacc c (List.mem_reverse.mp hc)
  | cons d ds ih =>
    intro acc hacc w hw c hc
    simp only [splitRunsAux] at hw
    cases hk : keep d with
    | true =>
      rw [if_pos hk] at hw
      refine ih (d :: acc) (fun x hx => ?_) w hw c hc
      rcases List.mem_cons.mp hx with rfl | hx
      · exact hk
      · exact hacc x hx
    | false =>
      rw [if_neg (by rw [hk]; exact Bool.false_ne_true)] at hw
      by_cases hae : acc.isEmpty
      · rw [if_pos hae] at hw
        exact ih [] (by simp) w hw c hc
      · rw [if_neg hae] at hw
        rcases List.mem_cons.mp hw with rfl | hw
        · exact hacc c (List.mem_reverse.mp hc)
        · exact ih [] (by simp) w hw c hc

/-- Every token of the utterance word set consists of word characters
only. -/
theorem userWords_chars (u : String) :
    ∀ w ∈ userWords u, ∀ c ∈ w.toList, wordCharP c = true := by
  intro w hw
  exact splitRunsAux_chars wordCharP (lowerStr u).toList [] (by simp) w hw

/-- Lower-casing leaves a non-word character unchanged. -/
theorem toLower_nonword (c : Char) (h : wordCharP c = false) :
    Char.toLower c = c := by
  have h' : (c.isAlphanum || c == '_') = false := h
  unfold Char.toLower
  rw [if_neg]
  rintro ⟨h1, h2⟩
  have hup : c.isUpper = true := by
    simp [Char.isUpper, UInt32.le_def, BitVec.le_def, Char.toNat,
      UInt32.toNat] at *
    omega
  simp [Char.isAlphanum, Char.isAlpha, hup] at h' 

/-- **C10.** An ingredient label containing a non-word character (such as
the multi-word `"olive oil"`) can never enter `ingredient_filters` — every
applied ingredient label literally equals an utterance token — and
therefore never narrows the filter result: dropping the label from the
intent record leaves `filterRecipes` unchanged on every corpus. -/
theorem filterRecipes_nonword_ingredient (i : Intents) (u : String)
    (lab : String) (hmem : lab ∈ i.ingredients)
    (hnw : ∃ c ∈ lab.toList, wordCharP c = false) :
    lab ∉ ingredientFilters i u
    ∧ (∀ v ∈ ingredientFilters i u, lowerStr v ∈ userWords u)
    ∧ ∀ df : List Recipe,
        filterRecipes i u df
          = filterRecipes
              { i with ingredients := i.ingredients.filter (fun v => v ≠ lab) }
              u df := by
  obtain ⟨c, hc, hcw⟩ := hnw
  have hmap : Char.toLower c ∈ (lowerStr lab).toList :=
    List.mem_map_of_mem Char.toLower hc
  have hlow : wordCharP (Char.toLower c) = false := by
    rw [toLower_nonword c hcw]; exact hcw
  have hnotin : lowerStr lab ∉ userWords u := by
    intro hmem'
    have := userWords_chars u _ hmem' _ hmap
    rw [hlow] at this
    cases this
  have hgate : (userWords u).contains (lowerStr lab) = false :=
    contains_eq_false_of_not_mem hnotin
  refine ⟨?_, ?_, ?_⟩
  · intro hlab
    have := (List.mem_filter.mp hlab).2
    rw [hgate] at this
    cases this
  · intro v hv
    exact List.elem_iff.mp (List.mem_filter.mp hv).2
  · intro df
    have hIF : ingredientFilters
        { i with ingredients := i.ingredients.filter (fun v => v ≠ lab) } u
        = ingredientFilters i u := by
      show (i.ingredients.filter (fun v => v ≠ lab)).filter _
          = i.ingredients.filter _
      rw [List.filter_filter]
      apply List.filter_congr
      intro v _
      by_cases hveq : v = lab
      · subst hveq
        rw [hgate]
        simp
      · simp [hveq]
    have hTF : tagFilters
        { i with ingredients := i.ingredients.filter (fun v => v ≠ lab) }
        = tagFilters i := rfl
    have hTC : ({ i with
        ingredients := i.ingredients.filter (fun v => v ≠ lab) } : Intents
        ).time_constraint = i.time_constraint := rfl
    unfold filterRecipes
    rw [hIF, hTF, hTC]

/-- Witness for C10: the multi-word label `"olive oil"` never enters the
ingredient filters, even when the utterance spells it out. -/
theorem filterRecipes_nonword_ingredient_witness :
    "olive oil" ∉ ingredientFilters intentsOliveEx "olive oil pasta" :=
  (filterRecipes_nonword_ingredient intentsOliveEx "olive oil pasta"
    "olive oil" (by decide) (by decide)).1

/-- Witness for C4: the empty utterance cleans to the empty string and is
rejected with the invalid-input error. -/
theorem recognize_invalidInput_iff_witness :
    recognize ctxEx "" = .error .invalidInput :=
  (recognize_invalidInput_iff ctxEx "").mpr (by with_unfolding_all rfl)
